import Mathlib

/-!
Verification of the chunking and vector-retrieval core of the
Autonomous-QA-Agent repository.

The Python sources modelled here are
`app/services/ingestion.py` (`DocumentIngester.chunk_text`) and
`app/services/vector_store.py` (`VectorStore.add_documents`,
`VectorStore.search`, `VectorStore.clear`, `VectorStore.get_stats`).

Texts are modelled as `List Char` (Python strings are sequences of
unicode code points), Python `int` as `Int`/`Nat`, and floating-point
vector arithmetic as exact rational arithmetic (`ℚ`), which preserves
the algebraic shape `score = 1 / (1 + distance)` of the scoring code.
The `chunk_text` while-loop is modelled with an explicit fuel
parameter; `none` means the loop did not finish within the given fuel.
-/

/-! ## Python string primitives -/

/-- Python whitespace characters removed by `str.strip()` (ASCII part). -/
def isPySpace (c : Char) : Bool :=
  c = ' ' || c = '\t' || c = '\n' || c = '\r' || c = '\x0b' || c = '\x0c'

/-- Model of Python `str.strip()`: drop leading and trailing whitespace. -/
def pyStrip (s : List Char) : List Char :=
  ((s.dropWhile isPySpace).reverse.dropWhile isPySpace).reverse

/-- Adjustment of a Python slice index: a negative index counts from the
end of the string and the result is clamped into `[0, len]`. -/
def pyAdjIdx (len : Nat) (i : Int) : Nat :=
  if i < 0 then ((len : Int) + i).toNat else min i.toNat len

/-- Model of the Python slice `s[i:j]`. -/
def pySlice (s : List Char) (i j : Int) : List Char :=
  (s.take (pyAdjIdx s.length j)).drop (pyAdjIdx s.length i)

/-- Whether `sub` occurs in `s` starting at position `p`. -/
def matchesAt (s sub : List Char) (p : Nat) : Bool :=
  decide (((s.drop p).take sub.length) = sub)

/-- Model of Python `str.rfind(sub, i, j)`: the highest position `p` with
`i' ≤ p`, `p + len(sub) ≤ j'` (slice-adjusted bounds) at which `sub`
occurs in `s`, or `-1` if there is none.  `List.range (j' + 1)` is
ascending, so `getLast?` of the filtered list is the highest match. -/
def pyRfind (s sub : List Char) (i j : Int) : Int :=
  let lo := pyAdjIdx s.length i
  let hi := pyAdjIdx s.length j
  match ((List.range (hi + 1)).filter
      (fun p => decide (lo ≤ p) && decide (p + sub.length ≤ hi) && matchesAt s sub p)).getLast? with
  | some p => (p : Int)
  | none => -1

/-! ## The chunker (`DocumentIngester.chunk_text`) -/

/-- One chunk produced by `chunk_text`: the dictionary
`{"text": ..., "chunk_index": ...}`. -/
structure Chunk where
  text : List Char
  chunk_index : Nat
deriving DecidableEq

/-- The boundary markers tried by `chunk_text`, in source order:
`['\n\n', '\n', '. ', '! ', '? ']`. -/
def breakChars : List (List Char) :=
  [['\n', '\n'], ['\n'], ['.', ' '], ['!', ' '], ['?', ' ']]

/-- The `for break_char in [...]` loop of `chunk_text`: the first marker
whose `rfind` over `[start, e)` succeeds moves the window end to just
after that marker's last occurrence; if none matches, `e` is kept. -/
def tryBreaks (text : List Char) (start e : Int) : List (List Char) → Int
  | [] => e
  | bc :: rest =>
    let lb := pyRfind text bc start e
    if lb ≠ -1 then lb + bc.length else tryBreaks text start e rest

/-- The window end chosen by `chunk_text` for the window starting at
`start`: the raw cutoff is `start + size`, and the boundary search runs
only when that cutoff lies strictly inside the text
(`if end < len(text)` in the source). -/
def nextEnd (text : List Char) (start : Int) (size : Nat) : Int :=
  if start + (size : Int) < (text.length : Int) then
    tryBreaks text start (start + (size : Int)) breakChars
  else start + (size : Int)

/-- The text of the window carved at `start`:
`text[start:end].strip()` with `end` chosen by `nextEnd`. -/
def chunkPiece (text : List Char) (start : Int) (size : Nat) : List Char :=
  pyStrip (pySlice text start (nextEnd text start size))

/-- The chunk accumulator after processing the window at `start`:
the stripped window text is appended unless it is empty. -/
def chunkAcc (text : List Char) (size : Nat) (start : Int) (idx : Nat)
    (acc : List Chunk) : List Chunk :=
  if chunkPiece text start size ≠ [] then acc ++ [Chunk.mk (chunkPiece text start size) idx]
  else acc

/-- The chunk counter after processing the window at `start`:
incremented only after a non-empty append. -/
def chunkIdx (text : List Char) (size : Nat) (start : Int) (idx : Nat) : Nat :=
  if chunkPiece text start size ≠ [] then idx + 1 else idx

/-- The body of the `while start < len(text)` loop of `chunk_text`,
with explicit fuel; `none` means the loop did not terminate within
`fuel` iterations. -/
def chunkLoop (text : List Char) (size olap : Nat) :
    Nat → Int → Nat → List Chunk → Option (List Chunk)
  | 0, _, _, _ => none
  | fuel + 1, start, idx, acc =>
    if start < (text.length : Int) then
      if (text.length : Int) ≤ nextEnd text start size - (olap : Int) then
        some (chunkAcc text size start idx acc)
      else
        chunkLoop text size olap fuel (nextEnd text start size - (olap : Int))
          (chunkIdx text size start idx) (chunkAcc text size start idx acc)
    else some acc

/-- Model of `DocumentIngester.chunk_text(text, chunk_size, chunk_overlap)`. -/
def chunkText (fuel : Nat) (text : List Char) (size olap : Nat) : Option (List Chunk) :=
  if text.length ≤ size then some [⟨text, 0⟩]
  else chunkLoop text size olap fuel 0 0 []

/-- Window-end selection as the specification words it ("shrink the
window's right edge to the last occurring boundary marker within the
window, trying markers in priority order; if none found the end stays at
the raw cutoff"), with no condition on where the raw cutoff lies:
the first marker of `breakChars` that occurs in `[start, start + size)`
wins, at its last occurrence. -/
def specEndClaim (text : List Char) (start : Int) (size : Nat) : Int :=
  match breakChars.find? (fun bc => pyRfind text bc start (start + (size : Int)) ≠ -1) with
  | some bc => pyRfind text bc start (start + (size : Int)) + bc.length
  | none => start + (size : Int)

/-- The amended window-end selection: as `specEndClaim`, but the shrink
is attempted only when the raw cutoff lies strictly inside the text;
the final window is never shrunk. -/
def specEndGuarded (text : List Char) (start : Int) (size : Nat) : Int :=
  if start + (size : Int) < (text.length : Int) then specEndClaim text start size
  else start + (size : Int)

/-- Input on which `chunk_text` loops forever with
`chunk_size = 10, chunk_overlap = 5`: the line break at position 4
pulls the window end back to 5, so the next start is `5 - 5 = 0` and
the loop state repeats. -/
def c1Text : List Char := "aaaa\nbbbbbbbbbb".data

/-- Input separating the code's window-end rule from the claimed one:
the final window `[10, 20)` contains the line break at position 12 but
is not shrunk by the code. -/
def c2Text : List Char := "0123456789ab\ncd".data

/-! ## Insertion sort, modelling Python's `list.sort(key=..., reverse=...)`
(only the ordering and length facts of the sort are relied on). -/

/-- Insert `a` into `l` before the first element `b` with `le a b`. -/
def insertLe {α : Type} (le : α → α → Bool) (a : α) : List α → List α
  | [] => [a]
  | b :: l => if le a b then a :: b :: l else b :: insertLe le a l

/-- Insertion sort by the boolean relation `le`. -/
def sortBy {α : Type} (le : α → α → Bool) : List α → List α
  | [] => []
  | a :: l => insertLe le a (sortBy le l)

/-! ## The vector store (`VectorStore`, flat FAISS backend) -/

/-- Embedding vectors, with exact rational coordinates. -/
def Vec : Type := List ℚ

/-- Squared Euclidean distance, the metric of `faiss.IndexFlatL2`. -/
def sqDist (a b : Vec) : ℚ :=
  (((List.zip a b).map fun p => (p.1 - p.2) ^ 2).sum : ℚ)

/-- Similarity score of the flat backend:
`score = 1.0 / (1.0 + distance)` (line 221 of `vector_store.py`). -/
def scoreOfDist (d : ℚ) : ℚ := 1 / (1 + d)

/-- Chunk metadata, an opaque string-to-scalar mapping. -/
def Metadata : Type := List (String × String)
deriving instance DecidableEq for Metadata

/-- One entry of the on-disk metadata sidecar `metadata.json`:
`{"index": ..., "text": ..., "metadata": ...}`. -/
structure MetaEntry where
  index : Nat
  text : String
  metadata : Metadata
deriving DecidableEq

/-- One input chunk of `add_documents`: a dictionary with
`text` and `metadata` keys. -/
structure ChunkDoc where
  text : String
  metadata : Metadata
deriving DecidableEq

/-- One search result: `{"text": ..., "metadata": ..., "score": ...}`. -/
structure SearchResult where
  text : String
  metadata : Metadata
  score : ℚ
deriving DecidableEq

/-- State of the FAISS-backed store: the in-memory index
(`None` before the first add), the parallel metadata list, and the two
on-disk artifacts (`faiss.index`, `metadata.json`), `none` when absent. -/
structure FaissState where
  vecs : Option (List Vec)
  meta : List MetaEntry
  diskIndex : Option (List Vec)
  diskMeta : Option (List MetaEntry)

/-- The fresh state produced by `_init_faiss` when no artifacts exist. -/
def initFaiss : FaissState := ⟨none, [], none, none⟩

/-- The metadata-appending loop of the FAISS branch of `add_documents`:
each entry records `index = len(metadata_store)` at the moment it is
appended. -/
def appendMetaEntries (ms : List MetaEntry) (l : List (String × Metadata)) : List MetaEntry :=
  l.foldl (fun ms tm => ms ++ [⟨ms.length, tm.1, tm.2⟩]) ms

/-- Model of `add_documents` (FAISS branch).  Returns the count added,
the new state, and the list of batches sent to the embedding provider
(empty when the provider was never invoked). -/
def addDocumentsFaiss (embed : String → Vec) (s : FaissState) (chunks : List ChunkDoc) :
    Nat × FaissState × List (List String) :=
  if chunks.isEmpty then (0, s, [])
  else
    let texts := chunks.map (·.text)
    let metadatas := chunks.map (·.metadata)
    let embeddings := texts.map embed
    let vecs' := s.vecs.getD [] ++ embeddings
    let meta' := appendMetaEntries s.meta (texts.zip metadatas)
    (chunks.length, ⟨some vecs', meta', some vecs', some meta'⟩, [texts])

/-- The raw `index.search(query, k)` call of `faiss.IndexFlatL2`: the
`k` entries of least squared distance to `qv`, as (row, distance)
pairs in ascending-distance order. -/
def faissHits (vecs : List Vec) (qv : Vec) (k : Nat) : List (Nat × ℚ) :=
  (sortBy (fun a b => decide (a.2 ≤ b.2)) (vecs.enum.map fun p => (p.1, sqDist p.2 qv))).take k

/-- Formatting of one FAISS hit: hits whose index is outside the
metadata list are skipped (`if idx < len(self.metadata_store)`), the
rest are scored by `scoreOfDist`. -/
def faissFormat (meta : List MetaEntry) (pd : Nat × ℚ) : Option SearchResult :=
  match meta.get? pd.1 with
  | some entry => some ⟨entry.text, entry.metadata, scoreOfDist pd.2⟩
  | none => none

/-- Model of `search` (FAISS branch): the empty list when the index is
absent or empty, otherwise the `min(top_k, ntotal)` nearest hits,
formatted and finally sorted by descending score
(`results.sort(key=lambda x: x["score"], reverse=True)`). -/
def searchFaiss (embed : String → Vec) (s : FaissState) (query : String) (top_k : Nat) :
    List SearchResult :=
  match s.vecs with
  | none => []
  | some vecs =>
    if vecs.length = 0 then []
    else
      sortBy (fun a b => decide (b.score ≤ a.score))
        ((faissHits vecs (embed query) (min top_k vecs.length)).filterMap
          (faissFormat s.meta))

/-- Model of `clear` (FAISS branch): the in-memory index becomes `None`,
the metadata list empty, and both artifacts are removed if present. -/
def clearFaiss (_ : FaissState) : FaissState := ⟨none, [], none, none⟩

/-- Entry count reported by `get_stats` for the FAISS backend:
`self.index.ntotal if self.index else 0`. -/
def getStatsCount (s : FaissState) : Nat :=
  match s.vecs with
  | none => 0
  | some vecs => vecs.length

/-- A mutating operation on the flat store. -/
inductive StoreOp where
  | add (chunks : List ChunkDoc)
  | clear

/-- Apply one operation to the flat store. -/
def applyOp (embed : String → Vec) (s : FaissState) : StoreOp → FaissState
  | .add chunks => (addDocumentsFaiss embed s chunks).2.1
  | .clear => clearFaiss s

/-- Run a sequence of operations on a fresh flat store. -/
def runOps (embed : String → Vec) (ops : List StoreOp) : FaissState :=
  ops.foldl (applyOp embed) initFaiss

/-! ## The vector store (managed Chroma backend) -/

/-- One entry of the managed collection. -/
structure ChromaEntry where
  id : String
  embedding : Vec
  document : String
  metadata : Metadata

/-- State of the managed collection. -/
structure ChromaState where
  entries : List ChromaEntry

/-- The per-entry identifier generated by the Chroma branch of
`add_documents`: `f"chunk_{i}_{hash(chunk['text'])}"`.  Python's string
hash is salted per process, so it is an arbitrary parameter here. -/
def mkChunkId (i : Nat) (h : Int) : String :=
  "chunk_" ++ toString i ++ "_" ++ toString h

/-- The id batch generated by `add_documents` (Chroma branch):
`[f"chunk_{i}_{hash(chunk['text'])}" for i, chunk in enumerate(chunks)]`. -/
def genChromaIds (pyHash : String → Int) (chunks : List ChunkDoc) : List String :=
  chunks.enum.map fun p => mkChunkId p.1 (pyHash p.2.text)

/-- Model of `add_documents` (Chroma branch): embeds the batch and adds
one entry per chunk under the generated ids. -/
def addDocumentsChroma (embed : String → Vec) (pyHash : String → Int)
    (c : ChromaState) (chunks : List ChunkDoc) : Nat × ChromaState × List (List String) :=
  if chunks.isEmpty then (0, c, [])
  else
    let texts := chunks.map (·.text)
    let metadatas := chunks.map (·.metadata)
    let embeddings := texts.map embed
    let ids := genChromaIds pyHash chunks
    let newEntries := (ids.zip (embeddings.zip (texts.zip metadatas))).map
      fun q => ChromaEntry.mk q.1 q.2.1 q.2.2.1 q.2.2.2
    (chunks.length, ⟨c.entries ++ newEntries⟩, [texts])

/-- Modelled from the spec: the managed collection's
`query(vector, k) → (texts, metadatas, distances)` (spec section 6)
returns at most `k` stored entries, nearest first by the service's
distance function `dist`.  The service itself is not part of the
repository sources. -/
def chromaQuery (dist : Vec → Vec → ℚ) (c : ChromaState) (qv : Vec) (k : Nat) :
    List (String × Metadata × ℚ) :=
  ((sortBy (fun a b => decide (dist a.embedding qv ≤ dist b.embedding qv)) c.entries).take k).map
    fun e => (e.document, e.metadata, dist e.embedding qv)

/-- Model of `search` (Chroma branch): each returned document is scored
by `1 - distance` (line 199 of `vector_store.py`). -/
def searchChroma (dist : Vec → Vec → ℚ) (embed : String → Vec)
    (c : ChromaState) (query : String) (k : Nat) : List SearchResult :=
  (chromaQuery dist c (embed query) k).map fun r => ⟨r.1, r.2.1, 1 - r.2.2⟩

/-- Model of `clear` (Chroma branch): the collection is deleted and
recreated empty. -/
def clearChroma (_ : ChromaState) : ChromaState := ⟨[]⟩

/-- Entry count reported by `get_stats` for the Chroma backend
(`self.collection.count()`). -/
def chromaCount (c : ChromaState) : Nat := c.entries.length

/-! ## Remaining definitions: invariants, decimal digit values, witness inputs -/

/-- The flat backend's position-alignment invariant: the index holds as
many vectors as the metadata list has entries, and the k-th metadata
record carries `index = k`. -/
def FaissInv (s : FaissState) : Prop :=
  getStatsCount s = s.meta.length ∧
  s.meta.map (·.index) = List.range s.meta.length

/-- Numeric value of a decimal digit character. -/
def digitVal (c : Char) : Nat := c.toNat - 48

/-- Value of a most-significant-first decimal digit string. -/
def digitsVal (l : List Char) : Nat := l.foldl (fun a c => 10 * a + digitVal c) 0

/-- An embedding provider mapping every text to the empty vector, used
as a concrete witness input. -/
def embedNull : String → Vec := fun _ => []

/-- Concrete three-entry add used as a witness input. -/
def opsThree : List StoreOp :=
  [StoreOp.add [ChunkDoc.mk "alpha" [], ChunkDoc.mk "beta" [], ChunkDoc.mk "gamma" []]]

/-- Concrete single-entry add used as a witness input. -/
def opsOne : List StoreOp := [StoreOp.add [ChunkDoc.mk "a" []]]

/-! ## Helper lemmas: bounds for the Python primitives -/

theorem pyAdjIdx_le_len (len : Nat) (i : Int) : pyAdjIdx len i ≤ len := by
  unfold pyAdjIdx
  split <;> omega

theorem pyAdjIdx_coe (len n : Nat) : pyAdjIdx len (n : Int) = min n len := by
  unfold pyAdjIdx
  split <;> omega

theorem pyAdjIdx_add_le (len : Nat) (start : Int) (size : Nat) :
    pyAdjIdx len (start + (size : Int)) ≤ pyAdjIdx len start + size := by
  unfold pyAdjIdx
  split <;> split <;> omega

theorem length_pySlice_le (s : List Char) (i j : Int) :
    (pySlice s i j).length ≤ pyAdjIdx s.length j - pyAdjIdx s.length i := by
  unfold pySlice
  rw [List.length_drop, List.length_take]
  have := pyAdjIdx_le_len s.length j
  omega

theorem length_pyStrip_le (s : List Char) : (pyStrip s).length ≤ s.length := by
  unfold pyStrip
  rw [List.length_reverse]
  calc ((s.dropWhile isPySpace).reverse.dropWhile isPySpace).length
      ≤ (s.dropWhile isPySpace).reverse.length := (List.dropWhile_sublist _).length_le
    _ = (s.dropWhile isPySpace).length := List.length_reverse _
    _ ≤ s.length := (List.dropWhile_sublist _).length_le

theorem pyRfind_cases (s sub : List Char) (i j : Int) :
    pyRfind s sub i j = -1 ∨
    ∃ p : Nat, pyRfind s sub i j = (p : Int) ∧
      pyAdjIdx s.length i ≤ p ∧ p + sub.length ≤ pyAdjIdx s.length j := by
  unfold pyRfind
  cases hg : ((List.range (pyAdjIdx s.length j + 1)).filter
      (fun p => decide (pyAdjIdx s.length i ≤ p) &&
        decide (p + sub.length ≤ pyAdjIdx s.length j) && matchesAt s sub p)).getLast? with
  | none => left; simp [hg]
  | some p =>
    right
    refine ⟨p, by simp [hg], ?_, ?_⟩ <;>
    · obtain ⟨ys, hys⟩ := List.getLast?_eq_some_iff.mp hg
      have hp : p ∈ (List.range (pyAdjIdx s.length j + 1)).filter
          (fun p => decide (pyAdjIdx s.length i ≤ p) &&
            decide (p + sub.length ≤ pyAdjIdx s.length j) && matchesAt s sub p) := by
        rw [hys]; exact List.mem_append_right ys (List.mem_singleton_self p)
      have := (List.mem_filter.mp hp).2
      simp only [Bool.and_eq_true, decide_eq_true_eq] at this
      omega

/-! ## Helper lemmas: the chunker -/

theorem tryBreaks_eq_find (text : List Char) (start e : Int) (bcs : List (List Char)) :
    tryBreaks text start e bcs =
      match bcs.find? (fun bc => pyRfind text bc start e ≠ -1) with
      | some bc => pyRfind text bc start e + bc.length
      | none => e := by
  induction bcs with
  | nil => rfl
  | cons bc rest ih =>
    simp only [tryBreaks, List.find?]
    by_cases h : pyRfind text bc start e = -1
    · simp only [h]
      rw [if_neg (by simp)]
      simpa using ih
    · simp only [if_pos h]
      rw [decide_eq_true (by exact h)]

theorem pyAdjIdx_tryBreaks_le (text : List Char) (start : Int) (size : Nat)
    (bcs : List (List Char)) :
    pyAdjIdx text.length (tryBreaks text start (start + (size : Int)) bcs) ≤
      pyAdjIdx text.length start + size := by
  induction bcs with
  | nil => exact pyAdjIdx_add_le _ _ _
  | cons bc rest ih =>
    simp only [tryBreaks]
    split
    · rcases pyRfind_cases text bc start (start + (size : Int)) with hneg | ⟨p, hp, hlo, hhi⟩
      · simp_all
      · rw [hp]
        have : ((p : Int) + (bc.length : Int)) = ((p + bc.length : Nat) : Int) := by push_cast; ring
        rw [this, pyAdjIdx_coe]
        have := pyAdjIdx_add_le text.length start size
        omega
    · exact ih

theorem chunkPiece_le (text : List Char) (start : Int) (size : Nat) :
    (chunkPiece text start size).length ≤ size := by
  have h1 := length_pyStrip_le (pySlice text start (nextEnd text start size))
  have h2 := length_pySlice_le text start (nextEnd text start size)
  have h3 : pyAdjIdx text.length (nextEnd text start size) ≤ pyAdjIdx text.length start + size := by
    unfold nextEnd
    split
    · exact pyAdjIdx_tryBreaks_le text start size breakChars
    · exact pyAdjIdx_add_le _ _ _
  unfold chunkPiece
  omega

theorem chunkAcc_sizes (text : List Char) (size : Nat) (start : Int) (idx : Nat)
    (acc : List Chunk) (hacc : ∀ c ∈ acc, c.text.length ≤ size) :
    ∀ c ∈ chunkAcc text size start idx acc, c.text.length ≤ size := by
  unfold chunkAcc
  split
  · intro c hc
    rcases List.mem_append.mp hc with hc | hc
    · exact hacc c hc
    · rw [List.mem_singleton.mp hc]
      exact chunkPiece_le text start size
  · exact hacc

theorem chunkLoop_sizes (text : List Char) (size olap : Nat) :
    ∀ (fuel : Nat) (start : Int) (idx : Nat) (acc cs : List Chunk),
      chunkLoop text size olap fuel start idx acc = some cs →
      (∀ c ∈ acc, c.text.length ≤ size) → ∀ c ∈ cs, c.text.length ≤ size := by
  intro fuel
  induction fuel with
  | zero => intro start idx acc cs h; exact absurd h (by simp [chunkLoop])
  | succ fuel ih =>
    intro start idx acc cs h hacc
    rw [chunkLoop] at h
    split at h
    · split at h
      · cases h; exact chunkAcc_sizes text size start idx acc hacc
      · exact ih _ _ _ _ h (chunkAcc_sizes text size start idx acc hacc)
    · cases h; exact hacc

theorem denseInv_extend (acc : List Chunk) (ct : List Char)
    (h : acc.map (·.chunk_index) = List.range acc.length) :
    (acc ++ [Chunk.mk ct acc.length]).map (·.chunk_index) =
      List.range (acc ++ [Chunk.mk ct acc.length]).length := by
  rw [List.map_append, h, List.length_append, List.length_singleton, List.range_succ]
  rfl

theorem chunkAcc_indices (text : List Char) (size : Nat) (start : Int)
    (acc : List Chunk) (hacc : acc.map (·.chunk_index) = List.range acc.length) :
    (chunkAcc text size start acc.length acc).map (·.chunk_index) =
      List.range (chunkAcc text size start acc.length acc).length := by
  unfold chunkAcc
  split
  · exact denseInv_extend acc (chunkPiece text start size) hacc
  · exact hacc

theorem chunkIdx_eq_length (text : List Char) (size : Nat) (start : Int)
    (acc : List Chunk) :
    chunkIdx text size start acc.length = (chunkAcc text size start acc.length acc).length := by
  unfold chunkIdx chunkAcc
  split <;> simp

theorem chunkLoop_indices (text : List Char) (size olap : Nat) :
    ∀ (fuel : Nat) (start : Int) (acc cs : List Chunk),
      chunkLoop text size olap fuel start acc.length acc = some cs →
      acc.map (·.chunk_index) = List.range acc.length →
      cs.map (·.chunk_index) = List.range cs.length := by
  intro fuel
  induction fuel with
  | zero => intro start acc cs h; exact absurd h (by simp [chunkLoop])
  | succ fuel ih =>
    intro start acc cs h hacc
    rw [chunkLoop] at h
    split at h
    · split at h
      · cases h; exact chunkAcc_indices text size start acc hacc
      · rw [chunkIdx_eq_length] at h
        exact ih _ _ _ h (chunkAcc_indices text size start acc hacc)
    · cases h; exact hacc

/-! ## Claims about the chunker -/

theorem c1_chunkLoop_diverges : ∀ (fuel idx : Nat) (acc : List Chunk),
    chunkLoop c1Text 10 5 fuel 0 idx acc = none := by
  intro fuel
  induction fuel with
  | zero => intro idx acc; rfl
  | succ fuel ih =>
    intro idx acc
    have hstep : chunkLoop c1Text 10 5 (fuel + 1) 0 idx acc =
        chunkLoop c1Text 10 5 fuel 0 (idx + 1) (acc ++ [Chunk.mk "aaaa".data idx]) := rfl
    rw [hstep]
    exact ih (idx + 1) (acc ++ [Chunk.mk "aaaa".data idx])

/-- Claim C1: `chunk_text` does NOT terminate for every input with
`chunk_size > 0` and `0 ≤ chunk_overlap < chunk_size`.  On the input
`"aaaa\nbbbbbbbbbb"` with `chunk_size = 10`, `chunk_overlap = 5` the
loop never reaches `start ≥ len(text)`: the line break at position 4
pulls the window end back to 5, the next start is `5 - 5 = 0`, and the
state repeats forever.  Formally, the loop fails to finish for every
fuel bound. -/
theorem chunkText_c1Text_diverges : ∀ fuel : Nat, chunkText fuel c1Text 10 5 = none := by
  intro fuel
  have h : chunkText fuel c1Text 10 5 = chunkLoop c1Text 10 5 fuel 0 0 [] := rfl
  rw [h]
  exact c1_chunkLoop_diverges fuel 0 []

/-- Claim C2 (counterexample): the final window is NOT shrunk to a
boundary marker even when one occurs inside it.  On
`"0123456789ab\ncd"` with `chunk_size = 10, chunk_overlap = 0`, the
window carved at `start = 10` keeps the raw end 20 and yields the chunk
`"ab\ncd"`, although the claimed rule would shrink the end to 13 (just
after the line break at position 12). -/
theorem chunkText_final_window_not_shrunk_cex :
    chunkText 12 c2Text 10 0 =
      some [Chunk.mk "0123456789".data 0, Chunk.mk "ab\ncd".data 1] ∧
    nextEnd c2Text 10 10 = 20 ∧ specEndClaim c2Text 10 10 = 13 :=
  ⟨rfl, rfl, rfl⟩

/-- Claim C2 (amended): each window's right edge follows the claimed
boundary-marker rule only when the raw cutoff `start + chunk_size` lies
strictly inside the text; the final window is never shrunk.  With that
amendment the window-end rule holds for every window, and every chunk
produced by a terminating run has text length at most `chunk_size`. -/
theorem chunkText_window_end_guarded_and_size_le
    (text : List Char) (size olap fuel : Nat) (start : Int) (cs : List Chunk)
    (hlen : size < text.length)
    (hrun : chunkText fuel text size olap = some cs) :
    nextEnd text start size = specEndGuarded text start size ∧
    ∀ c ∈ cs, c.text.length ≤ size := by
  constructor
  · unfold nextEnd specEndGuarded specEndClaim
    split
    · exact tryBreaks_eq_find text start (start + (size : Int)) breakChars
    · rfl
  · unfold chunkText at hrun
    rw [if_neg (by omega)] at hrun
    exact chunkLoop_sizes text size olap fuel 0 0 [] cs hrun (by simp)

/-- Witness for the amended claim C2 at a concrete input. -/
theorem chunkText_window_end_guarded_and_size_le_witness :
    nextEnd "ab".data 0 1 = specEndGuarded "ab".data 0 1 ∧
      (Chunk.mk ['a'] 0).text.length ≤ 1 := by
  have h := chunkText_window_end_guarded_and_size_le "ab".data 1 0 3 0
      [Chunk.mk ['a'] 0, Chunk.mk ['b'] 1] (by decide) (by rfl)
  exact ⟨h.1, h.2 (Chunk.mk ['a'] 0) (by decide)⟩

/-- Claim C3: for every text with `len(text) ≤ chunk_size` (including
the empty string), `chunk_text` returns exactly one chunk whose text is
the untrimmed input and whose `chunk_index` is 0. -/
theorem chunkText_short_input (fuel : Nat) (text : List Char) (size olap : Nat)
    (h : text.length ≤ size) :
    chunkText fuel text size olap = some [Chunk.mk text 0] := by
  unfold chunkText
  rw [if_pos h]

/-- Witness for claim C3 at a concrete input. -/
theorem chunkText_short_input_witness :
    "hi".data.length ≤ 5 ∧ chunkText 0 "hi".data 5 2 = some [Chunk.mk "hi".data 0] :=
  ⟨by decide, chunkText_short_input 0 "hi".data 5 2 (by decide)⟩

/-- Claim C4: the `chunk_index` values of any terminating `chunk_text`
run are exactly `0, 1, ..., N-1` in order, where `N` is the number of
chunks kept; dropped empty windows do not consume an index. -/
theorem chunkText_indices_dense (fuel : Nat) (text : List Char) (size olap : Nat)
    (cs : List Chunk) (h : chunkText fuel text size olap = some cs) :
    cs.map (·.chunk_index) = List.range cs.length := by
  unfold chunkText at h
  split at h
  · cases h; rfl
  · exact chunkLoop_indices text size olap fuel 0 [] cs h rfl

/-- Witness for claim C4 at a concrete input. -/
theorem chunkText_indices_dense_witness :
    ([Chunk.mk ['a'] 0, Chunk.mk ['b'] 1]).map (·.chunk_index) =
      List.range ([Chunk.mk ['a'] 0, Chunk.mk ['b'] 1]).length :=
  chunkText_indices_dense 3 "ab".data 1 0 [Chunk.mk ['a'] 0, Chunk.mk ['b'] 1] (by rfl)

/-! ## Helper lemmas: insertion sort -/

theorem length_insertLe {α : Type} (le : α → α → Bool) (a : α) :
    ∀ l : List α, (insertLe le a l).length = l.length + 1 := by
  intro l
  induction l with
  | nil => rfl
  | cons b l ih =>
    simp only [insertLe]
    split
    · rfl
    · simp [ih]

theorem length_sortBy {α : Type} (le : α → α → Bool) :
    ∀ l : List α, (sortBy le l).length = l.length := by
  intro l
  induction l with
  | nil => rfl
  | cons a l ih => simp [sortBy, length_insertLe, ih]

theorem perm_insertLe {α : Type} (le : α → α → Bool) (a : α) :
    ∀ l : List α, (insertLe le a l).Perm (a :: l) := by
  intro l
  induction l with
  | nil => exact List.Perm.refl _
  | cons b l ih =>
    simp only [insertLe]
    split
    · exact List.Perm.refl _
    · exact (ih.cons b).trans (List.Perm.swap a b l)

theorem perm_sortBy {α : Type} (le : α → α → Bool) :
    ∀ l : List α, (sortBy le l).Perm l := by
  intro l
  induction l with
  | nil => exact List.Perm.refl _
  | cons a l ih => exact (perm_insertLe le a (sortBy le l)).trans (ih.cons a)

theorem sorted_insertLe {α : Type} (le : α → α → Bool)
    (htot : ∀ p q, le p q || le q p)
    (htrans : ∀ p q r, le p q = true → le q r = true → le p r = true)
    (a : α) : ∀ l : List α, l.Pairwise (fun p q => le p q = true) →
      (insertLe le a l).Pairwise (fun p q => le p q = true) := by
  intro l
  induction l with
  | nil => intro _; simp [insertLe]
  | cons b l ih =>
    intro hl
    rcases List.pairwise_cons.mp hl with ⟨hb, hl'⟩
    simp only [insertLe]
    by_cases hab : le a b
    · rw [if_pos hab]
      refine List.pairwise_cons.mpr ⟨?_, hl⟩
      intro y hy
      rcases List.mem_cons.mp hy with heq | hy
      · rw [heq]; exact hab
      · exact htrans a b y hab (hb y hy)
    · rw [if_neg hab]
      refine List.pairwise_cons.mpr ⟨?_, ih hl'⟩
      intro y hy
      have hy' := (perm_insertLe le a l).mem_iff.mp hy
      rcases List.mem_cons.mp hy' with heq | hy'
      · rw [heq]
        rcases (Bool.or_eq_true _ _).mp (htot a b) with h | h
        · exact absurd h hab
        · exact h
      · exact hb y hy'

theorem sorted_sortBy {α : Type} (le : α → α → Bool)
    (htot : ∀ p q, le p q || le q p)
    (htrans : ∀ p q r, le p q = true → le q r = true → le p r = true) :
    ∀ l : List α, (sortBy le l).Pairwise (fun p q => le p q = true) := by
  intro l
  induction l with
  | nil => simp [sortBy]
  | cons a l ih => exact sorted_insertLe le htot htrans a (sortBy le l) ih

/-! ## Helper lemmas: lists and enumeration -/

theorem mem_enumFrom_bounds {α : Type} :
    ∀ (l : List α) (n : Nat) (p : Nat × α), p ∈ List.enumFrom n l →
      n ≤ p.1 ∧ p.1 < n + l.length ∧ p.2 ∈ l := by
  intro l
  induction l with
  | nil => intro n p h; simp [List.enumFrom] at h
  | cons a l ih =>
    intro n p h
    rw [List.enumFrom_cons] at h
    rcases List.mem_cons.mp h with rfl | h
    · simp
    · obtain ⟨h1, h2, h3⟩ := ih (n + 1) p h
      exact ⟨by omega, by simp; omega, List.mem_cons_of_mem a h3⟩

theorem pairwise_fst_lt_enumFrom {α : Type} :
    ∀ (l : List α) (n : Nat), (List.enumFrom n l).Pairwise (fun p q => p.1 < q.1) := by
  intro l
  induction l with
  | nil => intro n; simp [List.enumFrom]
  | cons a l ih =>
    intro n
    rw [List.enumFrom_cons]
    refine List.pairwise_cons.mpr ⟨?_, ih (n + 1)⟩
    intro q hq
    have := (mem_enumFrom_bounds l (n + 1) q hq).1
    simpa using by omega

theorem enumFrom_get? {α : Type} :
    ∀ (l : List α) (n i : Nat),
      (List.enumFrom n l).get? i = (l.get? i).map (fun a => (n + i, a)) := by
  intro l
  induction l with
  | nil => intro n i; simp [List.enumFrom]
  | cons a l ih =>
    intro n i
    rw [List.enumFrom_cons]
    cases i with
    | zero => simp
    | succ i =>
      simp only [List.get?_cons_succ, ih (n + 1) i]
      cases l.get? i
      · simp
      · simp
        omega

theorem length_filterMap_of_isSome {α β : Type} (f : α → Option β) :
    ∀ l : List α, (∀ x ∈ l, (f x).isSome) → (l.filterMap f).length = l.length := by
  intro l
  induction l with
  | nil => intro _; rfl
  | cons a l ih =>
    intro h
    rw [List.filterMap_cons]
    cases hf : f a with
    | none => exact absurd (h a (List.mem_cons_self a l)) (by simp [hf])
    | some b =>
      simp only [List.length_cons]
      rw [ih (fun x hx => h x (List.mem_cons_of_mem a hx))]

/-! ## Helper lemmas: the flat vector store -/

theorem getStatsCount_eq_getD (s : FaissState) :
    getStatsCount s = (s.vecs.getD []).length := by
  cases hv : s.vecs <;> simp [getStatsCount, hv]

theorem length_appendMetaEntries :
    ∀ (l : List (String × Metadata)) (ms : List MetaEntry),
      (appendMetaEntries ms l).length = ms.length + l.length := by
  intro l
  induction l with
  | nil => intro ms; rfl
  | cons tm l ih =>
    intro ms
    rw [show appendMetaEntries ms (tm :: l) =
        appendMetaEntries (ms ++ [MetaEntry.mk ms.length tm.1 tm.2]) l from rfl, ih]
    simp
    omega

theorem indices_appendMetaEntries :
    ∀ (l : List (String × Metadata)) (ms : List MetaEntry),
      ms.map (·.index) = List.range ms.length →
      (appendMetaEntries ms l).map (·.index) = List.range (appendMetaEntries ms l).length := by
  intro l
  induction l with
  | nil => intro ms h; exact h
  | cons tm l ih =>
    intro ms h
    rw [show appendMetaEntries ms (tm :: l) =
        appendMetaEntries (ms ++ [MetaEntry.mk ms.length tm.1 tm.2]) l from rfl]
    apply ih
    rw [List.map_append, h]
    simp [List.range_succ]

theorem addDocumentsFaiss_state (embed : String → Vec) (s : FaissState)
    (chunks : List ChunkDoc) (hne : chunks.isEmpty = false) :
    (addDocumentsFaiss embed s chunks).2.1 =
      ⟨some (s.vecs.getD [] ++ (chunks.map (·.text)).map embed),
       appendMetaEntries s.meta ((chunks.map (·.text)).zip (chunks.map (·.metadata))),
       some (s.vecs.getD [] ++ (chunks.map (·.text)).map embed),
       some (appendMetaEntries s.meta ((chunks.map (·.text)).zip (chunks.map (·.metadata))))⟩ := by
  unfold addDocumentsFaiss
  rw [if_neg (by simp [hne])]

theorem faissInv_applyOp (embed : String → Vec) (s : FaissState) (op : StoreOp)
    (h : FaissInv s) : FaissInv (applyOp embed s op) := by
  cases op with
  | clear => exact ⟨rfl, rfl⟩
  | add chunks =>
    cases hne : chunks.isEmpty with
    | true =>
      have hs : applyOp embed s (.add chunks) = s := by
        simp [applyOp, addDocumentsFaiss, hne]
      rw [hs]; exact h
    | false =>
      obtain ⟨h1, h2⟩ := h
      rw [getStatsCount_eq_getD] at h1
      have hzlen : ((chunks.map (·.text)).zip (chunks.map (·.metadata))).length =
          chunks.length := by
        rw [List.length_zip]; simp
      have hs := addDocumentsFaiss_state embed s chunks hne
      constructor
      · show getStatsCount (applyOp embed s (.add chunks)) = _
        rw [show applyOp embed s (.add chunks) = (addDocumentsFaiss embed s chunks).2.1 from rfl,
          hs]
        show (s.vecs.getD [] ++ (chunks.map (·.text)).map embed).length = _
        rw [List.length_append, length_appendMetaEntries, hzlen, h1]
        simp
      · rw [show applyOp embed s (.add chunks) = (addDocumentsFaiss embed s chunks).2.1 from rfl,
          hs]
        exact indices_appendMetaEntries _ s.meta h2

theorem faissInv_foldl (embed : String → Vec) :
    ∀ (ops : List StoreOp) (s : FaissState), FaissInv s →
      FaissInv (ops.foldl (applyOp embed) s) := by
  intro ops
  induction ops with
  | nil => intro s h; exact h
  | cons op ops ih =>
    intro s h
    exact ih (applyOp embed s op) (faissInv_applyOp embed s op h)

theorem faissInv_runOps (embed : String → Vec) (ops : List StoreOp) :
    FaissInv (runOps embed ops) :=
  faissInv_foldl embed ops initFaiss ⟨rfl, rfl⟩

theorem mem_faissHits (vecs : List Vec) (qv : Vec) (k : Nat) (pd : Nat × ℚ)
    (h : pd ∈ faissHits vecs qv k) :
    pd.1 < vecs.length ∧ ∃ v ∈ vecs, pd.2 = sqDist v qv := by
  unfold faissHits at h
  have h1 := List.take_subset _ _ h
  have h2 := (perm_sortBy _ _).mem_iff.mp h1
  obtain ⟨p, hp, hpe⟩ := List.mem_map.mp h2
  have hb := mem_enumFrom_bounds vecs 0 p (by simpa [List.enum] using hp)
  refine ⟨?_, ⟨p.2, hb.2.2, ?_⟩⟩
  · rw [← hpe]; simpa using hb.2.1
  · rw [← hpe]

theorem length_faissHits (vecs : List Vec) (qv : Vec) (k : Nat) (hk : k ≤ vecs.length) :
    (faissHits vecs qv k).length = k := by
  unfold faissHits
  rw [List.length_take, length_sortBy, List.length_map, List.enum_length]
  omega

theorem searchFaiss_length (embed : String → Vec) (s : FaissState) (q : String) (k : Nat)
    (hinv : FaissInv s) :
    (searchFaiss embed s q k).length = min k (getStatsCount s) := by
  unfold searchFaiss
  cases hv : s.vecs with
  | none => simp [getStatsCount, hv]
  | some vecs =>
    simp only [hv]
    by_cases h0 : vecs.length = 0
    · rw [if_pos h0]
      simp [getStatsCount, hv, h0]
    · rw [if_neg h0]
      have hstats : getStatsCount s = vecs.length := by simp [getStatsCount, hv]
      have hmeta : s.meta.length = vecs.length := by rw [← hstats]; exact hinv.1.symm
      rw [length_sortBy, length_filterMap_of_isSome]
      · rw [length_faissHits vecs (embed q) _ (by omega), hstats]
      · intro pd hpd
        have hlt := (mem_faissHits vecs (embed q) _ pd hpd).1
        unfold faissFormat
        rw [List.get?_eq_getElem?, List.getElem?_eq_getElem (by omega : pd.1 < s.meta.length)]
        rfl

theorem sqDist_nonneg (a b : Vec) : 0 ≤ sqDist a b := by
  unfold sqDist
  apply List.sum_nonneg
  intro x hx
  obtain ⟨p, _, hpe⟩ := List.mem_map.mp hx
  rw [← hpe]
  positivity

theorem scoreOfDist_pos (d : ℚ) (hd : 0 ≤ d) : 0 < scoreOfDist d := by
  unfold scoreOfDist
  apply div_pos one_pos
  linarith

theorem scoreOfDist_le_one (d : ℚ) (hd : 0 ≤ d) : scoreOfDist d ≤ 1 := by
  unfold scoreOfDist
  rw [div_le_one (by linarith)]
  linarith

theorem scoreOfDist_antitone (d₁ d₂ : ℚ) (h0 : 0 ≤ d₁) (h : d₁ ≤ d₂) :
    scoreOfDist d₂ ≤ scoreOfDist d₁ :=
  one_div_le_one_div_of_le (by linarith) (by linarith)

theorem mem_searchFaiss (embed : String → Vec) (s : FaissState) (q : String) (k : Nat)
    (r : SearchResult) (hr : r ∈ searchFaiss embed s q k) :
    ∃ v ∈ s.vecs.getD [],
      0 ≤ sqDist v (embed q) ∧ r.score = scoreOfDist (sqDist v (embed q)) := by
  unfold searchFaiss at hr
  cases hv : s.vecs with
  | none => rw [hv] at hr; simp at hr
  | some vecs =>
    simp only [hv] at hr
    by_cases h0 : vecs.length = 0
    · rw [if_pos h0] at hr; simp at hr
    · rw [if_neg h0] at hr
      have hr1 := (perm_sortBy _ _).mem_iff.mp hr
      obtain ⟨pd, hpd, hfmt⟩ := List.mem_filterMap.mp hr1
      obtain ⟨hlt, v, hvmem, hd⟩ := mem_faissHits vecs (embed q) _ pd hpd
      unfold faissFormat at hfmt
      cases hget : s.meta.get? pd.1 with
      | none => rw [hget] at hfmt; simp at hfmt
      | some entry =>
        rw [hget] at hfmt
        have hre : r = ⟨entry.text, entry.metadata, scoreOfDist pd.2⟩ :=
          (Option.some_injective _ hfmt).symm
        refine ⟨v, by simp [hv, hvmem], sqDist_nonneg v (embed q), ?_⟩
        rw [hre, ← hd]

theorem searchFaiss_pairwise (embed : String → Vec) (s : FaissState) (q : String) (k : Nat) :
    (searchFaiss embed s q k).Pairwise (fun a b => b.score ≤ a.score) := by
  unfold searchFaiss
  cases hv : s.vecs with
  | none => simp [hv]
  | some vecs =>
    simp only [hv]
    by_cases h0 : vecs.length = 0
    · rw [if_pos h0]; simp
    · rw [if_neg h0]
      have hs := sorted_sortBy (fun a b : SearchResult => decide (b.score ≤ a.score))
        (fun p q => by rcases le_total q.score p.score with h | h <;> simp [h])
        (fun p q r h1 h2 => by
          simp only [decide_eq_true_eq] at h1 h2 ⊢
          exact le_trans h2 h1)
        ((faissHits vecs (embed q) (min k vecs.length)).filterMap (faissFormat s.meta))
      exact hs.imp fun h => of_decide_eq_true h

/-! ## Claims about the vector store (flat backend and clear) -/

/-- Claim C5: against a flat index reachable by any sequence of adds
and clears, `search(query, top_k)` with `top_k > 0` returns exactly
`min(top_k, n)` results, where `n` is the stored entry count; in
particular an empty index yields the empty sequence, not an error. -/
theorem searchFaiss_count_min (embed : String → Vec) (ops : List StoreOp)
    (q : String) (k : Nat) (hk : 0 < k) :
    (searchFaiss embed (runOps embed ops) q k).length =
      min k (getStatsCount (runOps embed ops)) ∧
    (getStatsCount (runOps embed ops) = 0 →
      searchFaiss embed (runOps embed ops) q k = []) := by
  have hlen := searchFaiss_length embed (runOps embed ops) q k (faissInv_runOps embed ops)
  refine ⟨hlen, fun h0 => ?_⟩
  have hz : (searchFaiss embed (runOps embed ops) q k).length = 0 := by
    rw [hlen, h0]
    simp
  exact List.length_eq_zero.mp hz

/-- Witness for claim C5: three stored entries, `top_k = 1000`. -/
theorem searchFaiss_count_min_witness :
    0 < 1000 ∧
    ((searchFaiss embedNull (runOps embedNull opsThree) "alpha" 1000).length =
        min 1000 (getStatsCount (runOps embedNull opsThree)) ∧
      (getStatsCount (runOps embedNull opsThree) = 0 →
        searchFaiss embedNull (runOps embedNull opsThree) "alpha" 1000 = [])) :=
  ⟨by decide, searchFaiss_count_min embedNull opsThree "alpha" 1000 (by decide)⟩

/-- Claim C6: every result of flat-backend `search` carries
`score = 1 / (1 + d)` for the squared Euclidean distance `d ≥ 0` from
some stored vector to the query embedding, hence lies in `(0, 1]`; the
scoring function is antitone in the distance; and the result sequence is
sorted by non-increasing score. -/
theorem searchFaiss_score_ordering (embed : String → Vec) (s : FaissState)
    (q : String) (k : Nat) :
    (∀ r ∈ searchFaiss embed s q k,
      ∃ v ∈ s.vecs.getD [],
        0 ≤ sqDist v (embed q) ∧
        r.score = scoreOfDist (sqDist v (embed q)) ∧
        0 < r.score ∧ r.score ≤ 1) ∧
    (∀ d₁ d₂ : ℚ, 0 ≤ d₁ → d₁ ≤ d₂ → scoreOfDist d₂ ≤ scoreOfDist d₁) ∧
    (searchFaiss embed s q k).Pairwise (fun a b => b.score ≤ a.score) := by
  refine ⟨?_, scoreOfDist_antitone, searchFaiss_pairwise embed s q k⟩
  intro r hr
  obtain ⟨v, hv, hd, hs⟩ := mem_searchFaiss embed s q k r hr
  refine ⟨v, hv, hd, hs, ?_, ?_⟩
  · rw [hs]; exact scoreOfDist_pos _ hd
  · rw [hs]; exact scoreOfDist_le_one _ hd

/-- Witness for claim C6 at a concrete one-entry store. -/
theorem searchFaiss_score_ordering_witness :
    (∃ v ∈ (runOps embedNull opsOne).vecs.getD [],
      0 ≤ sqDist v (embedNull "q") ∧
      (SearchResult.mk "a" [] (scoreOfDist (sqDist [] []))).score =
        scoreOfDist (sqDist v (embedNull "q")) ∧
      0 < (SearchResult.mk "a" [] (scoreOfDist (sqDist [] []))).score ∧
      (SearchResult.mk "a" [] (scoreOfDist (sqDist [] []))).score ≤ 1) ∧
    scoreOfDist 1 ≤ scoreOfDist 0 ∧
    (searchFaiss embedNull (runOps embedNull opsOne) "q" 1).Pairwise
      (fun a b => b.score ≤ a.score) := by
  have h := searchFaiss_score_ordering embedNull (runOps embedNull opsOne) "q" 1
  refine ⟨h.1 (SearchResult.mk "a" [] (scoreOfDist (sqDist [] []))) ?_,
    h.2.1 0 1 le_rfl (by norm_num), h.2.2⟩
  have he : searchFaiss embedNull (runOps embedNull opsOne) "q" 1 =
      [SearchResult.mk "a" [] (scoreOfDist (sqDist [] []))] := rfl
  rw [he]
  exact List.mem_singleton_self _

/-- Claim C7: `clear()` is idempotent and total.  After a clear (of any
state, so in particular after any sequence of adds, and equally after a
second clear) the entry count is 0, a subsequent search returns the
empty sequence, and the flat backend's on-disk artifacts are gone; the
managed collection is likewise recreated empty. -/
theorem clear_total_idempotent (embed : String → Vec) (s : FaissState)
    (c : ChromaState) (dist : Vec → Vec → ℚ) (q : String) (k : Nat) :
    clearFaiss (clearFaiss s) = clearFaiss s ∧
    getStatsCount (clearFaiss s) = 0 ∧
    searchFaiss embed (clearFaiss s) q k = [] ∧
    (clearFaiss s).diskIndex = none ∧
    (clearFaiss s).diskMeta = none ∧
    clearChroma (clearChroma c) = clearChroma c ∧
    chromaCount (clearChroma c) = 0 ∧
    searchChroma dist embed (clearChroma c) q k = [] := by
  refine ⟨rfl, rfl, rfl, rfl, rfl, rfl, rfl, ?_⟩
  simp [searchChroma, chromaQuery, clearChroma, sortBy, List.take_nil]

/-- Claim C9: the flat backend's position-alignment invariant holds
after any sequence of `add_documents` and `clear` operations from a
fresh store: the number of stored vectors equals the metadata list's
length, and the k-th metadata entry records `index = k`. -/
theorem flat_position_alignment (embed : String → Vec) (ops : List StoreOp) :
    getStatsCount (runOps embed ops) = (runOps embed ops).meta.length ∧
    (runOps embed ops).meta.map (·.index) =
      List.range (runOps embed ops).meta.length :=
  faissInv_runOps embed ops

/-- Claim C10: `add_documents` of an empty batch returns 0, never
invokes the embedding provider (the trace of provider batches is
empty), and leaves both backends' state, including the flat backend's
on-disk artifacts, unchanged. -/
theorem add_documents_empty_is_noop (embed : String → Vec) (pyHash : String → Int)
    (s : FaissState) (c : ChromaState) :
    addDocumentsFaiss embed s [] = (0, s, []) ∧
    addDocumentsChroma embed pyHash c [] = (0, c, []) :=
  ⟨rfl, rfl⟩

/-! ## Helper lemmas: decimal representations and the id scheme -/

theorem digitChar_ne_underscore (m : Nat) : Nat.digitChar m ≠ '_' := by
  by_cases h : m < 16
  · interval_cases m <;> decide
  · unfold Nat.digitChar
    repeat rw [if_neg (by omega)]
    decide

theorem toDigitsCore_ne_underscore (b : Nat) :
    ∀ (fuel n : Nat) (ds : List Char), (∀ c ∈ ds, c ≠ '_') →
      ∀ c ∈ Nat.toDigitsCore b fuel n ds, c ≠ '_' := by
  intro fuel
  induction fuel with
  | zero => intro n ds h; simpa [Nat.toDigitsCore] using h
  | succ fuel ih =>
    intro n ds h
    simp only [Nat.toDigitsCore]
    have hcons : ∀ c ∈ Nat.digitChar (n % b) :: ds, c ≠ '_' := by
      intro c hc
      rcases List.mem_cons.mp hc with heq | hc
      · rw [heq]; exact digitChar_ne_underscore _
      · exact h c hc
    split
    · exact hcons
    · exact ih (n / b) (Nat.digitChar (n % b) :: ds) hcons

theorem toDigits_ne_underscore (n : Nat) : ∀ c ∈ Nat.toDigits 10 n, c ≠ '_' :=
  toDigitsCore_ne_underscore 10 (n + 1) n [] (by simp)

theorem toDigitsCore_append (b : Nat) :
    ∀ (fuel n : Nat) (ds : List Char),
      Nat.toDigitsCore b fuel n ds = Nat.toDigitsCore b fuel n [] ++ ds := by
  intro fuel
  induction fuel with
  | zero => intro n ds; simp [Nat.toDigitsCore]
  | succ fuel ih =>
    intro n ds
    simp only [Nat.toDigitsCore]
    split
    · rfl
    · rw [ih (n / b) (Nat.digitChar (n % b) :: ds), ih (n / b) [Nat.digitChar (n % b)]]
      simp

theorem toDigitsCore_fuel :
    ∀ (f₁ f₂ n : Nat) (ds : List Char), n < f₁ → n < f₂ →
      Nat.toDigitsCore 10 f₁ n ds = Nat.toDigitsCore 10 f₂ n ds := by
  intro f₁
  induction f₁ with
  | zero => intro f₂ n ds h1; omega
  | succ f₁ ih =>
    intro f₂ n ds h1 h2
    cases f₂ with
    | zero => omega
    | succ f₂ =>
      simp only [Nat.toDigitsCore]
      split
      · rfl
      · have hn : 0 < n := by
          rcases Nat.eq_zero_or_pos n with rfl | hn
          · simp_all
          · exact hn
        have hdiv := Nat.div_lt_self hn (by omega : 1 < 10)
        exact ih f₂ (n / 10) _ (by omega) (by omega)

theorem toDigits_step (n : Nat) (h : ¬ n / 10 = 0) :
    Nat.toDigits 10 n = Nat.toDigits 10 (n / 10) ++ [Nat.digitChar (n % 10)] := by
  have hn : 0 < n := by
    rcases Nat.eq_zero_or_pos n with rfl | hn
    · simp_all
    · exact hn
  have hdiv := Nat.div_lt_self hn (by omega : 1 < 10)
  unfold Nat.toDigits
  conv_lhs => simp only [Nat.toDigitsCore]
  rw [if_neg h, toDigitsCore_append 10 n (n / 10) [Nat.digitChar (n % 10)]]
  congr 1
  exact toDigitsCore_fuel n (n / 10 + 1) (n / 10) [] (by omega) (by omega)

theorem toDigits_base (n : Nat) (h : n / 10 = 0) :
    Nat.toDigits 10 n = [Nat.digitChar (n % 10)] := by
  unfold Nat.toDigits
  simp only [Nat.toDigitsCore]
  rw [if_pos h]

theorem digitVal_digitChar (m : Nat) (h : m < 10) : digitVal (Nat.digitChar m) = m := by
  interval_cases m <;> decide

theorem digitsVal_append_digit (l : List Char) (c : Char) :
    digitsVal (l ++ [c]) = 10 * digitsVal l + digitVal c := by
  unfold digitsVal
  rw [List.foldl_append]
  rfl

theorem digitsVal_toDigits (n : Nat) : digitsVal (Nat.toDigits 10 n) = n := by
  induction n using Nat.strong_induction_on with
  | _ n ih =>
    by_cases h : n / 10 = 0
    · rw [toDigits_base n h]
      have hmod : n % 10 = n := by omega
      show digitsVal [Nat.digitChar (n % 10)] = n
      unfold digitsVal
      simp only [List.foldl_cons, List.foldl_nil, Nat.mul_zero, Nat.zero_add]
      rw [digitVal_digitChar (n % 10) (by omega), hmod]
    · have hn : 0 < n := by
        rcases Nat.eq_zero_or_pos n with rfl | hn
        · simp_all
        · exact hn
      rw [toDigits_step n h, digitsVal_append_digit,
        ih (n / 10) (Nat.div_lt_self hn (by omega)),
        digitVal_digitChar (n % 10) (Nat.mod_lt _ (by omega))]
      omega

theorem toDigits_inj (n m : Nat) (h : Nat.toDigits 10 n = Nat.toDigits 10 m) : n = m := by
  rw [← digitsVal_toDigits n, ← digitsVal_toDigits m, h]

theorem append_sep_inj :
    ∀ (a b x y : List Char), '_' ∉ a → '_' ∉ b →
      a ++ '_' :: x = b ++ '_' :: y → a = b := by
  intro a
  induction a with
  | nil =>
    intro b x y _ hb h
    cases b with
    | nil => rfl
    | cons d bs =>
      rw [List.nil_append, List.cons_append] at h
      have hd : d = '_' := (List.cons.injEq _ _ _ _ ▸ h).1.symm
      exact absurd (hd ▸ List.mem_cons_self d bs) hb
  | cons c as ih =>
    intro b x y ha hb h
    cases b with
    | nil =>
      rw [List.nil_append, List.cons_append] at h
      have hc : c = '_' := (List.cons.injEq _ _ _ _ ▸ h).1
      exact absurd (hc ▸ List.mem_cons_self c as) ha
    | cons d bs =>
      rw [List.cons_append, List.cons_append] at h
      have h1 := (List.cons.injEq _ _ _ _ ▸ h).1
      have h2 := (List.cons.injEq _ _ _ _ ▸ h).2
      rw [h1, ih bs x y (fun hm => ha (List.mem_cons_of_mem c hm))
        (fun hm => hb (List.mem_cons_of_mem d hm)) h2]

theorem mkChunkId_inj_position (i j : Nat) (h₁ h₂ : Int)
    (h : mkChunkId i h₁ = mkChunkId j h₂) : i = j := by
  unfold mkChunkId at h
  have hd := congrArg String.data h
  simp only [String.data_append] at hd
  rw [List.append_assoc, List.append_assoc, List.append_assoc, List.append_assoc] at hd
  have hd2 := List.append_cancel_left hd
  have hdi : (toString i).data = Nat.toDigits 10 i := rfl
  have hdj : (toString j).data = Nat.toDigits 10 j := rfl
  rw [hdi, hdj] at hd2
  have hsep : Nat.toDigits 10 i ++ '_' :: (toString h₁).data =
      Nat.toDigits 10 j ++ '_' :: (toString h₂).data := by
    simpa using hd2
  apply toDigits_inj
  exact append_sep_inj _ _ _ _
    (fun hm => toDigits_ne_underscore i '_' hm rfl)
    (fun hm => toDigits_ne_underscore j '_' hm rfl) hsep

/-- Claim C8: the ids generated by the Chroma branch of
`add_documents` are a deterministic function of each entry's position
and text content (`f"chunk_{i}_{hash(text)}"`), and they are pairwise
distinct within a batch for every hash function: positions are decimal
strings free of underscores, so the segment before the first underscore
after the `chunk_` tag determines the position. -/
theorem genChromaIds_distinct (pyHash : String → Int) (chunks : List ChunkDoc) :
    (genChromaIds pyHash chunks).Pairwise (· ≠ ·) ∧
    ∀ i : Nat, (genChromaIds pyHash chunks).get? i =
      (chunks.get? i).map fun c => mkChunkId i (pyHash c.text) := by
  constructor
  · unfold genChromaIds
    exact List.Pairwise.map _
      (fun p q hlt heq =>
        absurd (mkChunkId_inj_position p.1 q.1 (pyHash p.2.text) (pyHash q.2.text) heq)
          (Nat.ne_of_lt hlt))
      (pairwise_fst_lt_enumFrom chunks 0)
  · intro i
    unfold genChromaIds
    rw [List.get?_map, show List.enum chunks = List.enumFrom 0 chunks from rfl,
      enumFrom_get? chunks 0 i]
    cases chunks.get? i <;> simp
